import Mathlib

/-!
Shallow embedding of the TF-IDF question-answering core in
`src/socFinalProject/questions.py`, together with a verification of the
spec's statements about `compute_idfs`, `top_files` and `top_sentences`.

Modelling choices:

* Python dictionaries (`documents`, `files`, `sentences`, `idfs`,
  `doc_frequency`, `file_scores`, `sentence_scores`) are modelled as
  association lists in insertion order; lookups find the unique binding.
* Python floats are modelled as real numbers; `math.log` is `Real.log`
  guarded by its domain check (`math.log` raises for non-positive
  arguments), and true division by zero is likewise modelled as `none`.
* Python's `sorted(..., reverse=True)` is a stable descending sort:
  with respect to the total preorder "key not below", every stable sort
  produces the same output, so it is modelled by `List.insertionSort`
  of Mathlib, which is stable in exactly this sense.
* Fallible computations return `Option`: `none` models a raised
  exception (`ValueError: math domain error` / `ZeroDivisionError`).
-/

abbrev Term := String
abbrev DocId := String
abbrev SentId := String

/-- Association-list lookup: Python `m[w]` / `m.get(w)` on a dict whose
bindings are listed in insertion order without duplicate keys. -/
def lookupKey {β : Type} : List (Term × β) → Term → Option β
  | [], _ => none
  | (k, v) :: rest, w => if k = w then some v else lookupKey rest w

/-- Python `idfs.get(word, 0)`: IDF lookup defaulting to `0`. -/
def idfD (idfs : List (Term × ℝ)) (w : Term) : ℝ :=
  (lookupKey idfs w).getD 0

/-- Python `doc_frequency[word] = doc_frequency.get(word, 0) + 1`:
increment the count bound to `w`, inserting the binding `(w, 1)` at the
end if `w` is absent. -/
def bump : List (Term × Nat) → Term → List (Term × Nat)
  | [], w => [(w, 1)]
  | (k, v) :: rest, w =>
    if k = w then (k, v + 1) :: rest else (k, v) :: bump rest w

/-- Inner loop of `compute_idfs`: fold one document's distinct term set
(`unique_words = set(doc_words)`) into the document-frequency table. -/
def addDoc (m : List (Term × Nat)) (ws : List Term) : List (Term × Nat) :=
  ws.dedup.foldl bump m

/-- The `doc_frequency` table built by `compute_idfs`. -/
def docFrequency (documents : List (DocId × List Term)) : List (Term × Nat) :=
  documents.foldl (fun m d => addDoc m d.2) []

/-- Python's `math.log`: defined on positive reals, raises
(`ValueError: math domain error`) otherwise. -/
noncomputable def pylog (x : ℝ) : Option ℝ :=
  if 0 < x then some (Real.log x) else none

/-- Final loop of `compute_idfs`: `idf = math.log(num_documents / frequency)`
for each binding of the document-frequency table.  A zero frequency would
be a `ZeroDivisionError`, also modelled by `none`. -/
noncomputable def idfTable (n : Nat) : List (Term × Nat) → Option (List (Term × ℝ))
  | [] => some []
  | (w, f) :: rest =>
    if f = 0 then none
    else (pylog ((n : ℝ) / (f : ℝ))).bind fun v =>
      (idfTable n rest).map fun t => (w, v) :: t

/-- `compute_idfs(documents)` from `questions.py`. -/
noncomputable def compute_idfs (documents : List (DocId × List Term)) :
    Option (List (Term × ℝ)) :=
  idfTable documents.length (docFrequency documents)

/-- Document frequency as the spec defines it: the number of documents
whose distinct term set contains `w`. -/
def df (documents : List (DocId × List Term)) (w : Term) : Nat :=
  (documents.filter fun p => w ∈ p.2).length

/-- The per-file accumulation loop of `top_files`:
`tf_idf_sum += file_words.count(word) * idfs.get(word, 0)` for each
query word present in the file. -/
noncomputable def fileScore (query ws : List Term) (idfs : List (Term × ℝ)) : ℝ :=
  query.foldl (fun acc w => if w ∈ ws then acc + (ws.count w : ℝ) * idfD idfs w else acc) 0

/-- The `file_scores` dict of `top_files`, in file enumeration order. -/
noncomputable def fileScores (query : List Term) (files : List (DocId × List Term))
    (idfs : List (Term × ℝ)) : List (DocId × ℝ) :=
  files.map fun p => (p.1, fileScore query p.2 idfs)

/-- The comparison under `sorted(file_scores.items(), key=lambda item:
item[1], reverse=True)`: `a` may come before `b` iff `a`'s score is not
below `b`'s. -/
def scoreGe (a b : DocId × ℝ) : Prop := b.2 ≤ a.2

noncomputable instance : DecidableRel scoreGe := fun a b =>
  inferInstanceAs (Decidable (b.2 ≤ a.2))

/-- `sorted_files` from `top_files`: the scored files stably sorted in
descending score order. -/
noncomputable def rankedFiles (query : List Term) (files : List (DocId × List Term))
    (idfs : List (Term × ℝ)) : List (DocId × ℝ) :=
  List.insertionSort scoreGe (fileScores query files idfs)

/-- `top_files(query, files, idfs, n)` from `questions.py`. -/
noncomputable def top_files (query : List Term) (files : List (DocId × List Term))
    (idfs : List (Term × ℝ)) (n : Nat) : List DocId :=
  ((rankedFiles query files idfs).take n).map Prod.fst

/-- `matching_word_measure`: `sum(idfs.get(word, 0) for word in query if
word in words)`. -/
noncomputable def matchingMeasure (query ws : List Term) (idfs : List (Term × ℝ)) : ℝ :=
  ((query.filter fun w => w ∈ ws).map (idfD idfs)).sum

/-- `query_term_density`: `sum(1 for word in words if word in query) /
len(words)`, as a real number (the Python expression raises on an empty
sentence; that case is guarded in `sentenceScore`). -/
noncomputable def density (query ws : List Term) : ℝ :=
  ((ws.filter fun w => w ∈ query).length : ℝ) / (ws.length : ℝ)

/-- The `(matching_word_measure, query_term_density)` pair stored in
`sentence_scores`. -/
noncomputable def sentKey (query ws : List Term) (idfs : List (Term × ℝ)) : ℝ × ℝ :=
  (matchingMeasure query ws idfs, density query ws)

/-- One iteration of the `top_sentences` scoring loop: the division by
`len(words)` raises `ZeroDivisionError` on an empty token sequence. -/
noncomputable def sentenceScore (query ws : List Term) (idfs : List (Term × ℝ)) :
    Option (ℝ × ℝ) :=
  if ws.length = 0 then none else some (sentKey query ws idfs)

/-- The `sentence_scores` dict in sentence enumeration order; `none` as
soon as one sentence has an empty token sequence. -/
noncomputable def scoreAll (query : List Term) (idfs : List (Term × ℝ)) :
    List (SentId × List Term) → Option (List (SentId × (ℝ × ℝ)))
  | [] => some []
  | (sid, ws) :: rest =>
    (sentenceScore query ws idfs).bind fun sc =>
      (scoreAll query idfs rest).map fun t => (sid, sc) :: t

/-- Lexicographic "not below" on score pairs: the order under
`key=lambda item: (item[1][0], item[1][1]), reverse=True`. -/
def lexGe (u v : ℝ × ℝ) : Prop := v.1 < u.1 ∨ (v.1 = u.1 ∧ v.2 ≤ u.2)

noncomputable instance : Decidable (lexGe u v) :=
  inferInstanceAs (Decidable (_ ∨ _))

/-- The comparison on scored sentences used by `sorted` in `top_sentences`. -/
def sentGe (a b : SentId × (ℝ × ℝ)) : Prop := lexGe a.2 b.2

noncomputable instance : DecidableRel sentGe := fun a b =>
  inferInstanceAs (Decidable (lexGe a.2 b.2))

/-- `sorted_sentences` from `top_sentences`: scored sentences stably
sorted in descending lexicographic order of their score pairs. -/
noncomputable def rankedSentences (scored : List (SentId × (ℝ × ℝ))) :
    List (SentId × (ℝ × ℝ)) :=
  List.insertionSort sentGe scored

/-- `top_sentences(query, sentences, idfs, n)` from `questions.py`. -/
noncomputable def top_sentences (query : List Term) (sentences : List (SentId × List Term))
    (idfs : List (Term × ℝ)) (n : Nat) : Option (List SentId) :=
  (scoreAll query idfs sentences).map fun scored =>
    ((rankedSentences scored).take n).map Prod.fst

/-! ### Helper lemmas: the document-frequency table -/

/-- Count bound to `w`, with `0` for an absent key. -/
def cnt (m : List (Term × Nat)) (w : Term) : Nat :=
  (lookupKey m w).getD 0

theorem lookupKey_bump_self (m : List (Term × Nat)) (w : Term) :
    lookupKey (bump m w) w = some (cnt m w + 1) := by
  induction m with
  | nil => simp [bump, lookupKey, cnt]
  | cons p rest ih =>
    obtain ⟨k, v⟩ := p
    by_cases hk : k = w
    · subst hk
      simp [bump, lookupKey, cnt]
    · simp [bump, lookupKey, hk, cnt] at ih ⊢
      exact ih

theorem lookupKey_bump_ne (m : List (Term × Nat)) (w x : Term) (hx : x ≠ w) :
    lookupKey (bump m w) x = lookupKey m x := by
  have hwx : ¬w = x := fun h => hx h.symm
  induction m with
  | nil => simp [bump, lookupKey, hwx]
  | cons p rest ih =>
    obtain ⟨k, v⟩ := p
    by_cases hk : k = w
    · subst hk
      simp [bump, lookupKey, hwx]
    · simp [bump, lookupKey, hk, ih]

theorem cnt_foldl_bump (l : List Term) (hl : l.Nodup) (m : List (Term × Nat)) (w : Term) :
    cnt (l.foldl bump m) w = cnt m w + (if w ∈ l then 1 else 0) := by
  induction l generalizing m with
  | nil => simp
  | cons a l ih =>
    obtain ⟨ha, hl2⟩ := List.nodup_cons.mp hl
    by_cases hw : w = a
    · subst hw
      have hnl : w ∉ l := ha
      simp only [List.foldl_cons, ih hl2, List.mem_cons, true_or, if_true, hnl, if_false,
        if_neg hnl]
      simp [cnt, lookupKey_bump_self]
    · simp only [List.foldl_cons, ih hl2]
      have : cnt (bump m a) w = cnt m w := by
        simp [cnt, lookupKey_bump_ne m a w hw]
      simp [this, hw]

theorem cnt_addDoc (m : List (Term × Nat)) (ws : List Term) (w : Term) :
    cnt (addDoc m ws) w = cnt m w + (if w ∈ ws then 1 else 0) := by
  unfold addDoc
  rw [cnt_foldl_bump ws.dedup ws.nodup_dedup]
  simp [List.mem_dedup]

theorem df_cons (d : DocId × List Term) (docs : List (DocId × List Term)) (w : Term) :
    df (d :: docs) w = (if w ∈ d.2 then 1 else 0) + df docs w := by
  by_cases h : w ∈ d.2 <;> simp [df, List.filter_cons, h] <;> omega

theorem cnt_foldl_addDoc (docs : List (DocId × List Term)) (m : List (Term × Nat)) (w : Term) :
    cnt (docs.foldl (fun m d => addDoc m d.2) m) w = cnt m w + df docs w := by
  induction docs generalizing m with
  | nil => simp [df]
  | cons d docs ih =>
    rw [List.foldl_cons, ih, cnt_addDoc, df_cons]
    omega

theorem cnt_docFrequency (docs : List (DocId × List Term)) (w : Term) :
    cnt (docFrequency docs) w = df docs w := by
  unfold docFrequency
  rw [cnt_foldl_addDoc]
  simp [cnt, lookupKey]

theorem bump_pos (m : List (Term × Nat)) (w : Term) (hm : ∀ p ∈ m, 1 ≤ p.2) :
    ∀ p ∈ bump m w, 1 ≤ p.2 := by
  induction m with
  | nil => simp [bump]
  | cons q rest ih =>
    obtain ⟨k, v⟩ := q
    intro p hp
    by_cases hk : k = w
    · subst hk
      simp only [bump, if_pos rfl] at hp
      rcases List.mem_cons.mp hp with h | h
      · subst h; simp
      · exact hm p (List.mem_cons_of_mem _ h)
    · simp only [bump, if_neg hk] at hp
      rcases List.mem_cons.mp hp with h | h
      · subst h; exact hm (k, v) (List.mem_cons_self _ _)
      · exact ih (fun q hq => hm q (List.mem_cons_of_mem _ hq)) p h

theorem foldl_bump_pos (l : List Term) (m : List (Term × Nat)) (hm : ∀ p ∈ m, 1 ≤ p.2) :
    ∀ p ∈ l.foldl bump m, 1 ≤ p.2 := by
  induction l generalizing m with
  | nil => exact hm
  | cons a l ih => exact ih _ (bump_pos m a hm)

theorem docFrequency_pos (docs : List (DocId × List Term)) :
    ∀ p ∈ docFrequency docs, 1 ≤ p.2 := by
  unfold docFrequency
  have main : ∀ (ds : List (DocId × List Term)) (m : List (Term × Nat)),
      (∀ p ∈ m, 1 ≤ p.2) → ∀ p ∈ ds.foldl (fun m d => addDoc m d.2) m, 1 ≤ p.2 := by
    intro ds
    induction ds with
    | nil => intro m hm; exact hm
    | cons d ds ih => intro m hm; exact ih _ (foldl_bump_pos _ _ hm)
  exact main docs [] (by simp)

theorem lookupKey_mem {β : Type} (m : List (Term × β)) (w : Term) (v : β)
    (h : lookupKey m w = some v) : (w, v) ∈ m := by
  induction m with
  | nil => simp [lookupKey] at h
  | cons p rest ih =>
    obtain ⟨k, u⟩ := p
    by_cases hk : k = w
    · subst hk
      simp [lookupKey] at h
      subst h; exact List.mem_cons_self _ _
    · simp [lookupKey, hk] at h
      exact List.mem_cons_of_mem _ (ih h)

theorem lookupKey_docFrequency (docs : List (DocId × List Term)) (w : Term) :
    lookupKey (docFrequency docs) w =
      if df docs w = 0 then none else some (df docs w) := by
  have hc := cnt_docFrequency docs w
  rcases hlk : lookupKey (docFrequency docs) w with _ | v
  · rw [cnt, hlk] at hc
    simp at hc
    simp [← hc]
  · rw [cnt, hlk] at hc
    simp at hc
    have hv : 1 ≤ v := docFrequency_pos docs (w, v) (lookupKey_mem _ _ _ hlk)
    rw [if_neg (by omega), hc]

theorem keys_bump (m : List (Term × Nat)) (w : Term) :
    (bump m w).map Prod.fst = m.map Prod.fst ∨
      (bump m w).map Prod.fst = m.map Prod.fst ++ [w] := by
  induction m with
  | nil => right; simp [bump]
  | cons p rest ih =>
    obtain ⟨k, v⟩ := p
    by_cases hk : k = w
    · left; simp [bump, hk]
    · rcases ih with h | h
      · left; simp [bump, hk, h]
      · right; simp [bump, hk, h]

theorem mem_keys_bump (m : List (Term × Nat)) (w x : Term) :
    x ∈ (bump m w).map Prod.fst ↔ x ∈ m.map Prod.fst ∨ x = w := by
  induction m with
  | nil => simp [bump]
  | cons p rest ih =>
    obtain ⟨k, v⟩ := p
    by_cases hk : k = w
    · subst hk
      simp [bump]
      tauto
    · simp [bump, hk, ih]
      tauto

theorem keys_nodup_bump (m : List (Term × Nat)) (w : Term)
    (hm : (m.map Prod.fst).Nodup) : ((bump m w).map Prod.fst).Nodup := by
  induction m with
  | nil => simp [bump]
  | cons p rest ih =>
    obtain ⟨k, v⟩ := p
    simp only [List.map_cons, List.nodup_cons] at hm
    by_cases hk : k = w
    · simp only [bump, if_pos hk, List.map_cons, List.nodup_cons]
      exact ⟨hm.1, hm.2⟩
    · simp only [bump, if_neg hk, List.map_cons, List.nodup_cons]
      refine ⟨?_, ih hm.2⟩
      intro hkmem
      rcases (mem_keys_bump rest w k).mp hkmem with h | h
      · exact hm.1 h
      · exact hk h

theorem keys_nodup_foldl_bump (l : List Term) (m : List (Term × Nat))
    (hm : (m.map Prod.fst).Nodup) : ((l.foldl bump m).map Prod.fst).Nodup := by
  induction l generalizing m with
  | nil => exact hm
  | cons a l ih => exact ih _ (keys_nodup_bump m a hm)

theorem keys_nodup_docFrequency (docs : List (DocId × List Term)) :
    ((docFrequency docs).map Prod.fst).Nodup := by
  unfold docFrequency
  have main : ∀ (ds : List (DocId × List Term)) (m : List (Term × Nat)),
      (m.map Prod.fst).Nodup →
      ((ds.foldl (fun m d => addDoc m d.2) m).map Prod.fst).Nodup := by
    intro ds
    induction ds with
    | nil => intro m hm; exact hm
    | cons d ds ih => intro m hm; exact ih _ (keys_nodup_foldl_bump _ _ hm)
  exact main docs [] (by simp)

theorem idfTable_eq (n : Nat) (hn : 0 < n) (m : List (Term × Nat))
    (hm : ∀ p ∈ m, 1 ≤ p.2) :
    idfTable n m = some (m.map fun p => (p.1, Real.log ((n : ℝ) / (p.2 : ℝ)))) := by
  induction m with
  | nil => simp [idfTable]
  | cons p rest ih =>
    obtain ⟨w, f⟩ := p
    have hf : 1 ≤ f := hm (w, f) (List.mem_cons_self _ _)
    have hpos : (0 : ℝ) < (n : ℝ) / (f : ℝ) := by
      apply div_pos
      · exact_mod_cast hn
      · exact_mod_cast hf
    simp only [idfTable, if_neg (by omega : ¬f = 0), pylog, if_pos hpos,
      Option.bind_eq_bind, Option.some_bind,
      ih fun q hq => hm q (List.mem_cons_of_mem _ hq), Option.map_some]
    simp

theorem lookupKey_map_value {β : Type} (m : List (Term × Nat)) (g : Nat → β) (w : Term) :
    lookupKey (m.map fun p => (p.1, g p.2)) w = (lookupKey m w).map g := by
  induction m with
  | nil => simp [lookupKey]
  | cons p rest ih =>
    obtain ⟨k, v⟩ := p
    by_cases hk : k = w <;> simp [lookupKey, hk, ih]

theorem lookupKey_logmap (m : List (Term × Nat)) (c : ℝ) (w : Term) :
    lookupKey (m.map fun p => (p.1, Real.log (c / (p.2 : ℝ)))) w =
      (lookupKey m w).map fun f => Real.log (c / (f : ℝ)) := by
  induction m with
  | nil => simp [lookupKey]
  | cons p rest ih =>
    obtain ⟨k, v⟩ := p
    by_cases hk : k = w <;> simp [lookupKey, hk, ih]

theorem df_pos_iff (docs : List (DocId × List Term)) (w : Term) :
    0 < df docs w ↔ ∃ p ∈ docs, w ∈ p.2 := by
  unfold df
  constructor
  · intro h
    obtain ⟨p, hp⟩ := List.exists_mem_of_length_pos h
    have hp2 := List.mem_filter.mp hp
    exact ⟨p, hp2.1, by simpa using hp2.2⟩
  · rintro ⟨p, hp, hw⟩
    exact List.length_pos_of_mem (List.mem_filter.mpr ⟨hp, by simpa using hw⟩)

theorem compute_idfs_eq (docs : List (DocId × List Term)) (h : docs ≠ []) :
    compute_idfs docs = some ((docFrequency docs).map fun p =>
      (p.1, Real.log ((docs.length : ℝ) / (p.2 : ℝ)))) := by
  unfold compute_idfs
  exact idfTable_eq _ (List.length_pos.mpr h) _ (docFrequency_pos docs)

/-! ### C1: behaviour of `compute_idfs` on an empty corpus -/

/-- C1 (counterexample): the claim says `compute_idfs` fails with a
`DomainError` on the empty documents mapping; in fact on the empty
mapping the document-frequency loop and the log loop both run zero
times, `math.log` is never called, and the function returns normally. -/
theorem compute_idfs_empty_no_error :
    compute_idfs ([] : List (DocId × List Term)) ≠ none := by
  simp [compute_idfs, docFrequency, idfTable]

/-- C1 (amended): on the empty documents mapping `compute_idfs` raises
nothing and returns the empty IDF mapping. -/
theorem compute_idfs_empty_eq :
    compute_idfs ([] : List (DocId × List Term)) = some [] := rfl

/-- Full characterisation of `compute_idfs` on a non-empty corpus: it
succeeds, its result has no duplicate keys, and looking up any term
gives `ln(N / df)` for observed terms and nothing for unseen ones. -/
theorem compute_idfs_characterise (docs : List (DocId × List Term)) (h : docs ≠ []) :
    ∃ t, compute_idfs docs = some t ∧ (t.map Prod.fst).Nodup ∧
      ∀ w, lookupKey t w =
        if ∃ p ∈ docs, w ∈ p.2
        then some (Real.log ((docs.length : ℝ) / (df docs w : ℝ)))
        else none := by
  refine ⟨_, compute_idfs_eq docs h, ?_, ?_⟩
  · have := keys_nodup_docFrequency docs
    simpa [List.map_map, Function.comp] using this
  · intro w
    rw [lookupKey_logmap, lookupKey_docFrequency]
    by_cases hp : ∃ p ∈ docs, w ∈ p.2
    · have hdf : 0 < df docs w := (df_pos_iff docs w).mpr hp
      rw [if_neg (by omega), if_pos hp]
      simp
    · have hdf : ¬0 < df docs w := fun hlt => hp ((df_pos_iff docs w).mp hlt)
      rw [if_pos (by omega), if_neg hp]
      simp

/-! ### C2: full characterisation of `compute_idfs` on a non-empty corpus -/

/-- C2: for every non-empty documents mapping, `compute_idfs` returns a
mapping whose domain is exactly the set of terms occurring in at least
one document, sending each such term `w` to `ln(N / df(w))`, where `N`
is the number of documents and `df(w)` the number of documents whose
distinct term set contains `w` (duplicate occurrences inside one
document count once). -/
theorem compute_idfs_spec (docs : List (DocId × List Term)) (h : docs ≠ [])
    (_hkeys : (docs.map Prod.fst).Nodup) :
    ∃ t, compute_idfs docs = some t ∧ (t.map Prod.fst).Nodup ∧
      ∀ w, lookupKey t w =
        if ∃ p ∈ docs, w ∈ p.2
        then some (Real.log ((docs.length : ℝ) / (df docs w : ℝ)))
        else none :=
  compute_idfs_characterise docs h

theorem compute_idfs_spec_witness :
    ([("a", ["x", "x", "y"]), ("b", ["y"])] : List (DocId × List Term)) ≠ [] ∧
    (([("a", ["x", "x", "y"]), ("b", ["y"])] : List (DocId × List Term)).map Prod.fst).Nodup ∧
    ∃ t, compute_idfs [("a", ["x", "x", "y"]), ("b", ["y"])] = some t ∧
      (t.map Prod.fst).Nodup ∧
      ∀ w, lookupKey t w =
        if ∃ p ∈ ([("a", ["x", "x", "y"]), ("b", ["y"])] : List (DocId × List Term)), w ∈ p.2
        then some (Real.log ((([("a", ["x", "x", "y"]), ("b", ["y"])] : List (DocId × List Term)).length : ℝ) /
          (df [("a", ["x", "x", "y"]), ("b", ["y"])] w : ℝ)))
        else none :=
  ⟨by simp, by simp, compute_idfs_spec _ (by simp) (by simp)⟩

/-! ### C7: range of IDF values -/

theorem df_le_length (docs : List (DocId × List Term)) (w : Term) :
    df docs w ≤ docs.length :=
  List.length_filter_le _ _

theorem df_eq_length_iff (docs : List (DocId × List Term)) (w : Term) :
    df docs w = docs.length ↔ ∀ p ∈ docs, w ∈ p.2 := by
  unfold df
  constructor
  · intro hlen p hp
    have := List.filter_length_eq_length.mp hlen p hp
    simpa using this
  · intro hall
    exact List.filter_length_eq_length.mpr fun p hp => by simpa using hall p hp

/-- C7: on a non-empty corpus every observed term has an IDF value in
the interval `[0, ln N]`, and the value is `0` exactly when the term
occurs in every document. -/
theorem compute_idfs_range (docs : List (DocId × List Term)) (h : docs ≠ [])
    (_hkeys : (docs.map Prod.fst).Nodup) (w : Term) (hw : ∃ p ∈ docs, w ∈ p.2) :
    ∃ t r, compute_idfs docs = some t ∧ lookupKey t w = some r ∧
      0 ≤ r ∧ r ≤ Real.log (docs.length : ℝ) ∧
      (r = 0 ↔ ∀ p ∈ docs, w ∈ p.2) := by
  obtain ⟨t, ht, _hnd, hlook⟩ := compute_idfs_characterise docs h
  have hdf1 : 1 ≤ df docs w := (df_pos_iff docs w).mpr hw
  have hdfN : df docs w ≤ docs.length := df_le_length docs w
  have hN : 0 < docs.length := List.length_pos.mpr h
  have hdpos : (0 : ℝ) < (df docs w : ℝ) := by exact_mod_cast hdf1
  have hNpos : (0 : ℝ) < (docs.length : ℝ) := by exact_mod_cast hN
  set x : ℝ := (docs.length : ℝ) / (df docs w : ℝ) with hx
  have hx1 : 1 ≤ x := (one_le_div hdpos).mpr (by exact_mod_cast hdfN)
  have hxpos : 0 < x := lt_of_lt_of_le one_pos hx1
  refine ⟨t, Real.log x, ht, by rw [hlook w, if_pos hw], Real.log_nonneg hx1, ?_, ?_⟩
  · refine (Real.log_le_log_iff hxpos hNpos).mpr ?_
    exact div_le_self (le_of_lt hNpos) (by exact_mod_cast hdf1)
  · constructor
    · intro h0
      rcases Real.log_eq_zero.mp h0 with hz | hz | hz
      · exact absurd hz (by linarith)
      · rw [hx, div_eq_one_iff_eq (ne_of_gt hdpos)] at hz
        exact (df_eq_length_iff docs w).mp (by exact_mod_cast hz.symm)
      · exact absurd hz (by linarith)
    · intro hall
      have : df docs w = docs.length := (df_eq_length_iff docs w).mpr hall
      rw [hx, this, div_self (ne_of_gt hNpos), Real.log_one]

theorem compute_idfs_range_witness :
    ([("a", ["x"]), ("b", ["x", "y"])] : List (DocId × List Term)) ≠ [] ∧
    (([("a", ["x"]), ("b", ["x", "y"])] : List (DocId × List Term)).map Prod.fst).Nodup ∧
    (∃ p ∈ ([("a", ["x"]), ("b", ["x", "y"])] : List (DocId × List Term)), "y" ∈ p.2) ∧
    ∃ t r, compute_idfs [("a", ["x"]), ("b", ["x", "y"])] = some t ∧
      lookupKey t "y" = some r ∧
      0 ≤ r ∧ r ≤ Real.log (([("a", ["x"]), ("b", ["x", "y"])] : List (DocId × List Term)).length : ℝ) ∧
      (r = 0 ↔ ∀ p ∈ ([("a", ["x"]), ("b", ["x", "y"])] : List (DocId × List Term)), "y" ∈ p.2) :=
  ⟨by simp, by simp, by simp, compute_idfs_range _ (by simp) (by simp) "y" (by simp)⟩

/-! ### C8: duplicating a document -/

theorem df_append_dup (docs : List (DocId × List Term)) (newId : DocId)
    (ws : List Term) (w : Term) (hw : w ∈ ws) :
    df (docs ++ [(newId, ws)]) w = df docs w + 1 := by
  unfold df
  rw [List.filter_append, List.length_append]
  simp [List.filter_cons, hw]

/-- C8: appending a textually identical copy of an existing document
under a fresh identifier raises the document frequency of each of its
terms by exactly one, and the IDF of each such term does not increase. -/
theorem compute_idfs_duplicate (docs : List (DocId × List Term)) (h : docs ≠ [])
    (_hkeys : (docs.map Prod.fst).Nodup) (d0 : DocId) (ws : List Term)
    (hmem : (d0, ws) ∈ docs) (newId : DocId)
    (_hfresh : newId ∉ docs.map Prod.fst) (w : Term) (hw : w ∈ ws) :
    df (docs ++ [(newId, ws)]) w = df docs w + 1 ∧
    ∃ t t2 r r2, compute_idfs docs = some t ∧
      compute_idfs (docs ++ [(newId, ws)]) = some t2 ∧
      lookupKey t w = some r ∧ lookupKey t2 w = some r2 ∧ r2 ≤ r := by
  refine ⟨df_append_dup docs newId ws w hw, ?_⟩
  obtain ⟨t, ht, _, hlook⟩ := compute_idfs_characterise docs h
  obtain ⟨t2, ht2, _, hlook2⟩ :=
    compute_idfs_characterise (docs ++ [(newId, ws)]) (by simp)
  have hocc : ∃ p ∈ docs, w ∈ p.2 := ⟨(d0, ws), hmem, hw⟩
  have hocc2 : ∃ p ∈ docs ++ [(newId, ws)], w ∈ p.2 :=
    ⟨(d0, ws), List.mem_append_left _ hmem, hw⟩
  have hdf1 : 1 ≤ df docs w := (df_pos_iff docs w).mpr hocc
  have hdfN : df docs w ≤ docs.length := df_le_length docs w
  have hN : 0 < docs.length := List.length_pos.mpr h
  refine ⟨t, t2, _, _, ht, ht2, by rw [hlook w, if_pos hocc],
    by rw [hlook2 w, if_pos hocc2], ?_⟩
  rw [df_append_dup docs newId ws w hw, List.length_append]
  have hdpos : (0 : ℝ) < (df docs w : ℝ) := by exact_mod_cast hdf1
  have hNpos : (0 : ℝ) < (docs.length : ℝ) := by exact_mod_cast hN
  have hx2pos : (0 : ℝ) < ((docs.length + 1 : Nat) : ℝ) / ((df docs w + 1 : Nat) : ℝ) := by
    positivity
  have hxpos : (0 : ℝ) < (docs.length : ℝ) / (df docs w : ℝ) := by positivity
  refine (Real.log_le_log_iff hx2pos hxpos).mpr ?_
  rw [div_le_div_iff (by positivity) hdpos]
  have hdNr : (df docs w : ℝ) ≤ (docs.length : ℝ) := by exact_mod_cast hdfN
  push_cast
  nlinarith [hdNr]

theorem compute_idfs_duplicate_witness :
    ([("a", ["x"]), ("b", ["y"])] : List (DocId × List Term)) ≠ [] ∧
    (([("a", ["x"]), ("b", ["y"])] : List (DocId × List Term)).map Prod.fst).Nodup ∧
    (("a", ["x"]) : DocId × List Term) ∈ ([("a", ["x"]), ("b", ["y"])] : List (DocId × List Term)) ∧
    ("c" : DocId) ∉ ([("a", ["x"]), ("b", ["y"])] : List (DocId × List Term)).map Prod.fst ∧
    ("x" : Term) ∈ (["x"] : List Term) ∧
    (df ([("a", ["x"]), ("b", ["y"])] ++ [("c", ["x"])]) "x" = df [("a", ["x"]), ("b", ["y"])] "x" + 1 ∧
    ∃ t t2 r r2, compute_idfs [("a", ["x"]), ("b", ["y"])] = some t ∧
      compute_idfs ([("a", ["x"]), ("b", ["y"])] ++ [("c", ["x"])]) = some t2 ∧
      lookupKey t "x" = some r ∧ lookupKey t2 "x" = some r2 ∧ r2 ≤ r) :=
  ⟨by simp, by simp, by simp, by simp, by simp,
    compute_idfs_duplicate _ (by simp) (by simp) "a" ["x"] (by simp) "c" (by simp) "x" (by simp)⟩

/-! ### Helper lemmas: file scores and sorting -/

theorem foldl_if_add (g : Term → ℝ) (P : Term → Prop) [DecidablePred P]
    (l : List Term) (acc : ℝ) :
    l.foldl (fun a w => if P w then a + g w else a) acc =
      acc + (l.map fun w => if P w then g w else 0).sum := by
  induction l generalizing acc with
  | nil => simp
  | cons w l ih =>
    by_cases hP : P w <;> simp [hP, ih] <;> ring

theorem fileScore_eq_sum (q ws : List Term) (idfs : List (Term × ℝ)) :
    fileScore q ws idfs =
      (q.map fun w => if w ∈ ws then (ws.count w : ℝ) * idfD idfs w else 0).sum := by
  unfold fileScore
  rw [foldl_if_add (fun w => (ws.count w : ℝ) * idfD idfs w) (fun w => w ∈ ws) q 0]
  rw [zero_add]

instance : IsTotal (DocId × ℝ) scoreGe := ⟨fun a b => le_total b.2 a.2⟩

instance : IsTrans (DocId × ℝ) scoreGe := ⟨fun _ _ _ hab hbc => le_trans hbc hab⟩

/-! ### C3: the TF-IDF score assigned to each file -/

/-- C3: the score `top_files` assigns to a file is the sum, over query
terms occurring in the file, of raw occurrence count times IDF, with
IDF defaulting to `0` for terms absent from the IDF table; absent query
terms contribute nothing and nothing is raised. -/
theorem fileScore_spec (q ws : List Term) (idfs : List (Term × ℝ)) (hq : q.Nodup) :
    fileScore q ws idfs =
      ∑ t ∈ q.toFinset.filter (fun t => t ∈ ws), (ws.count t : ℝ) * idfD idfs t := by
  rw [fileScore_eq_sum, Finset.sum_filter, List.sum_toFinset _ hq]

theorem fileScore_spec_witness :
    (["x", "z"] : List Term).Nodup ∧
    fileScore ["x", "z"] ["x", "y", "x"] [("x", 2)] =
      ∑ t ∈ (["x", "z"] : List Term).toFinset.filter
        (fun t => t ∈ (["x", "y", "x"] : List Term)),
        ((["x", "y", "x"] : List Term).count t : ℝ) * idfD [("x", 2)] t :=
  ⟨by simp, fileScore_spec _ _ _ (by simp)⟩

/-! ### C4: shape and order of the `top_files` result -/

/-- C4: for every query, files mapping, IDF mapping and count `n`,
`top_files` returns exactly `min n (number of files)` identifiers,
listed in non-increasing order of their TF-IDF scores: it is the
mapped prefix of the stably sorted scored list, which is pairwise
sorted by `scoreGe` and a permutation of the per-file scores. -/
theorem top_files_length_sorted (q : List Term) (files : List (DocId × List Term))
    (idfs : List (Term × ℝ)) (n : Nat) :
    (top_files q files idfs n).length = min n files.length ∧
    ((rankedFiles q files idfs).take n).Pairwise scoreGe ∧
    top_files q files idfs n = ((rankedFiles q files idfs).take n).map Prod.fst ∧
    (rankedFiles q files idfs).Perm (fileScores q files idfs) := by
  have hperm : (rankedFiles q files idfs).Perm (fileScores q files idfs) :=
    List.perm_insertionSort scoreGe _
  refine ⟨?_, ?_, rfl, hperm⟩
  · unfold top_files
    rw [List.length_map, List.length_take, hperm.length_eq]
    simp [fileScores]
  · have hs : (rankedFiles q files idfs).Pairwise scoreGe :=
      List.sorted_insertionSort scoreGe _
    exact hs.sublist (List.take_sublist n _)

/-! ### C5: the score pair assigned to each sentence -/

theorem map_filter_sum (f : Term → ℝ) (P : Term → Prop) [DecidablePred P] (l : List Term) :
    ((l.filter fun w => P w).map f).sum = (l.map fun w => if P w then f w else 0).sum := by
  induction l with
  | nil => simp
  | cons w l ih =>
    by_cases hP : P w <;> simp [List.filter_cons, hP, ih]

theorem matchingMeasure_eq_sum (q ws : List Term) (idfs : List (Term × ℝ)) (hq : q.Nodup) :
    matchingMeasure q ws idfs = ∑ t ∈ q.toFinset.filter (fun t => t ∈ ws), idfD idfs t := by
  unfold matchingMeasure
  rw [Finset.sum_filter, List.sum_toFinset _ hq, map_filter_sum]

/-- C5: every sentence with a non-empty token sequence is scored with
the pair (matching word measure, query term density): the sum of the
IDF values (default `0`) of the distinct query terms occurring in the
sentence — each query term counted at most once — paired with the
fraction of the sentence's tokens that are query terms. -/
theorem sentenceScore_spec (q ws : List Term) (idfs : List (Term × ℝ))
    (hq : q.Nodup) (hw : ws ≠ []) :
    sentenceScore q ws idfs =
      some (∑ t ∈ q.toFinset.filter (fun t => t ∈ ws), idfD idfs t,
        ((ws.filter fun w => w ∈ q).length : ℝ) / (ws.length : ℝ)) := by
  unfold sentenceScore
  rw [if_neg fun h => hw (List.length_eq_zero.mp h)]
  unfold sentKey density
  rw [matchingMeasure_eq_sum q ws idfs hq]

theorem sentenceScore_spec_witness :
    (["x"] : List Term).Nodup ∧ (["x", "y"] : List Term) ≠ [] ∧
    sentenceScore ["x"] ["x", "y"] [("x", 1)] =
      some (∑ t ∈ (["x"] : List Term).toFinset.filter
          (fun t => t ∈ (["x", "y"] : List Term)), idfD [("x", 1)] t,
        (((["x", "y"] : List Term).filter fun w => w ∈ (["x"] : List Term)).length : ℝ) /
          ((["x", "y"] : List Term).length : ℝ)) :=
  ⟨by simp, by simp, sentenceScore_spec _ _ _ (by simp) (by simp)⟩

/-! ### Helper lemmas: the sentence ordering -/

instance : IsTotal (SentId × (ℝ × ℝ)) sentGe :=
  ⟨fun a b => by
    unfold sentGe lexGe
    rcases lt_trichotomy a.2.1 b.2.1 with h | h | h
    · exact Or.inr (Or.inl h)
    · rcases le_total b.2.2 a.2.2 with h2 | h2
      · exact Or.inl (Or.inr ⟨h.symm, h2⟩)
      · exact Or.inr (Or.inr ⟨h, h2⟩)
    · exact Or.inl (Or.inl h)⟩

instance : IsTrans (SentId × (ℝ × ℝ)) sentGe :=
  ⟨fun a b c hab hbc => by
    unfold sentGe lexGe at hab hbc ⊢
    rcases hab with h1 | ⟨h1, h1d⟩
    · rcases hbc with h2 | ⟨h2, _⟩
      · exact Or.inl (lt_trans h2 h1)
      · exact Or.inl (h2 ▸ h1)
    · rcases hbc with h2 | ⟨h2, h2d⟩
      · exact Or.inl (h1 ▸ h2)
      · exact Or.inr ⟨h1 ▸ h2, le_trans h2d h1d⟩⟩

theorem sentenceScore_some (q ws : List Term) (idfs : List (Term × ℝ))
    (sc : ℝ × ℝ) (h : sentenceScore q ws idfs = some sc) :
    ws ≠ [] ∧ sc = sentKey q ws idfs := by
  unfold sentenceScore at h
  by_cases hlen : ws.length = 0
  · rw [if_pos hlen] at h
    cases h
  · rw [if_neg hlen] at h
    exact ⟨fun hnil => hlen (by simp [hnil]), (Option.some_inj.mp h).symm⟩

theorem scoreAll_eq_some (q : List Term) (idfs : List (Term × ℝ))
    (sents : List (SentId × List Term)) (l : List (SentId × (ℝ × ℝ)))
    (h : scoreAll q idfs sents = some l) :
    (∀ p ∈ sents, p.2 ≠ []) ∧ l = sents.map fun p => (p.1, sentKey q p.2 idfs) := by
  induction sents generalizing l with
  | nil =>
    unfold scoreAll at h
    simp at h
    simp [h.symm]
  | cons p rest ih =>
    obtain ⟨sid, ws⟩ := p
    unfold scoreAll at h
    cases hsc : sentenceScore q ws idfs with
    | none => rw [hsc] at h; cases h
    | some sc =>
      rw [hsc] at h
      cases hrest : scoreAll q idfs rest with
      | none => rw [hrest] at h; cases h
      | some l2 =>
        rw [hrest] at h
        simp only [Option.some_bind, Option.map_some', Option.map_some,
          Option.some_inj] at h
        obtain ⟨hne, hkey⟩ := sentenceScore_some q ws idfs sc hsc
        obtain ⟨hall, hl2⟩ := ih l2 hrest
        constructor
        · intro p hp
          rcases List.mem_cons.mp hp with hp | hp
          · rw [hp]; exact hne
          · exact hall p hp
        · rw [← h, hl2, hkey]
          simp

theorem lookup_unique {β : Type} (m : List (Term × β))
    (hnd : (m.map Prod.fst).Nodup) (k : Term) (v v2 : β)
    (h1 : (k, v) ∈ m) (h2 : (k, v2) ∈ m) : v = v2 := by
  induction m with
  | nil => cases h1
  | cons p rest ih =>
    obtain ⟨pk, pv⟩ := p
    simp only [List.map_cons, List.nodup_cons] at hnd
    rcases List.mem_cons.mp h1 with he1 | ht1
    · rcases List.mem_cons.mp h2 with he2 | ht2
      · cases he1; cases he2; rfl
      · cases he1
        exact absurd (List.mem_map_of_mem Prod.fst ht2) (by simpa using hnd.1)
    · rcases List.mem_cons.mp h2 with he2 | ht2
      · cases he2
        exact absurd (List.mem_map_of_mem Prod.fst ht1) (by simpa using hnd.1)
      · exact ih hnd.2 ht1 ht2

/-! ### C6: ordering of the `top_sentences` result -/

/-- C6: in the sequence returned by `top_sentences`, a sentence with
strictly higher matching-word measure precedes any sentence with lower
measure, and of two sentences with equal measure the one with strictly
higher query-term density precedes the other. -/
theorem top_sentences_order (q : List Term) (sents : List (SentId × List Term))
    (idfs : List (Term × ℝ)) (n : Nat)
    (hkeys : (sents.map Prod.fst).Nodup)
    (l : List SentId) (hl : top_sentences q sents idfs n = some l)
    (a b : SentId) (wsa wsb : List Term)
    (ha : (a, wsa) ∈ sents) (hb : (b, wsb) ∈ sents)
    (i j : Nat) (hi : i < l.length) (hj : j < l.length)
    (hia : l[i] = a) (hjb : l[j] = b) (hij : i ≠ j)
    (hgt : matchingMeasure q wsb idfs < matchingMeasure q wsa idfs ∨
      (matchingMeasure q wsb idfs = matchingMeasure q wsa idfs ∧
       density q wsb < density q wsa)) :
    i < j := by
  unfold top_sentences at hl
  obtain ⟨scored, hscored, hg⟩ := Option.map_eq_some'.mp hl
  obtain ⟨-, hsc⟩ := scoreAll_eq_some q idfs sents scored hscored
  set L := (rankedSentences scored).take n with hL
  have hlL : l = L.map Prod.fst := hg.symm
  subst hlL
  have hiL : i < L.length := by simpa using hi
  have hjL : j < L.length := by simpa using hj
  have key : ∀ (m : Nat) (hm : m < L.length),
      ∃ wsc, ((L.get ⟨m, hm⟩).1, wsc) ∈ sents ∧
        (L.get ⟨m, hm⟩).2 = sentKey q wsc idfs := by
    intro m hm
    have hmem : L.get ⟨m, hm⟩ ∈ L := List.get_mem L m hm
    have hmem2 : L.get ⟨m, hm⟩ ∈ rankedSentences scored :=
      (List.take_sublist n _).subset hmem
    have hmem3 : L.get ⟨m, hm⟩ ∈ scored := (List.mem_insertionSort sentGe).mp hmem2
    rw [hsc] at hmem3
    obtain ⟨p, hp, hpe⟩ := List.mem_map.mp hmem3
    refine ⟨p.2, ?_, ?_⟩
    · rw [← hpe]
      exact hp
    · rw [← hpe]
  obtain ⟨wsi, hwi_mem, hki⟩ := key i hiL
  obtain ⟨wsj, hwj_mem, hkj⟩ := key j hjL
  have hai : (L.get ⟨i, hiL⟩).1 = a := by simpa using hia
  have haj : (L.get ⟨j, hjL⟩).1 = b := by simpa using hjb
  have hwsa : wsi = wsa := lookup_unique sents hkeys a wsi wsa (hai ▸ hwi_mem) ha
  have hwsb : wsj = wsb := lookup_unique sents hkeys b wsj wsb (haj ▸ hwj_mem) hb
  have hscoreI : (L.get ⟨i, hiL⟩).2 = sentKey q wsa idfs := by rw [hki, hwsa]
  have hscoreJ : (L.get ⟨j, hjL⟩).2 = sentKey q wsb idfs := by rw [hkj, hwsb]
  by_contra hnot
  have hji : j < i := by omega
  have hpair : L.Pairwise sentGe :=
    (List.sorted_insertionSort sentGe scored).sublist (List.take_sublist n _)
  have hge0 := List.pairwise_iff_getElem.mp hpair j i hjL hiL hji
  have hge : sentGe (L.get ⟨j, hjL⟩) (L.get ⟨i, hiL⟩) := hge0
  unfold sentGe lexGe at hge
  rw [hscoreI, hscoreJ] at hge
  unfold sentKey at hge
  simp only at hge
  rcases hge with hgl | ⟨hgl, hgd⟩ <;> rcases hgt with hlt | ⟨heq, hd⟩ <;> linarith

theorem top_sentences_order_witness :
    ((([("s1", ["x"]), ("s2", ["x", "y"])] : List (SentId × List Term)).map Prod.fst).Nodup) ∧
    top_sentences ["x"] [("s1", ["x"]), ("s2", ["x", "y"])] [("x", 1)] 2 = some ["s1", "s2"] ∧
    (matchingMeasure ["x"] ["x", "y"] [("x", 1)] = matchingMeasure ["x"] ["x"] [("x", 1)] ∧
      density ["x"] ["x", "y"] < density ["x"] ["x"]) ∧
    (0 : Nat) < 1 := by
  have e1 : sentKey ["x"] ["x"] [("x", 1)] = (1, 1) := by
    simp [sentKey, matchingMeasure, density, idfD, lookupKey]
  have e2 : sentKey ["x"] ["x", "y"] [("x", 1)] = (1, 1 / 2) := by
    simp [sentKey, matchingMeasure, density, idfD, lookupKey]
  have e3 : scoreAll ["x"] [("x", 1)] [("s1", ["x"]), ("s2", ["x", "y"])] =
      some [("s1", ((1 : ℝ), (1 : ℝ))), ("s2", ((1 : ℝ), (1 : ℝ) / 2))] := by
    simp [scoreAll, sentenceScore, e1, e2]
  have h12 : sentGe ("s1", ((1 : ℝ), (1 : ℝ))) ("s2", ((1 : ℝ), (1 : ℝ) / 2)) :=
    Or.inr ⟨rfl, by norm_num⟩
  have e4 : rankedSentences [("s1", ((1 : ℝ), (1 : ℝ))), ("s2", ((1 : ℝ), (1 : ℝ) / 2))] =
      [("s1", ((1 : ℝ), (1 : ℝ))), ("s2", ((1 : ℝ), (1 : ℝ) / 2))] := by
    unfold rankedSentences
    simp only [List.insertionSort, List.orderedInsert_nil]
    exact List.orderedInsert_of_le sentGe [] h12
  have hl : top_sentences ["x"] [("s1", ["x"]), ("s2", ["x", "y"])] [("x", 1)] 2 =
      some ["s1", "s2"] := by
    unfold top_sentences
    rw [e3]
    simp only [Option.map_some']
    rw [e4]
    rfl
  have hmeq : matchingMeasure ["x"] ["x", "y"] [("x", 1)] =
      matchingMeasure ["x"] ["x"] [("x", 1)] := by
    simp [matchingMeasure, idfD, lookupKey]
  have hdlt : density ["x"] ["x", "y"] < density ["x"] ["x"] := by
    simp [density]
    norm_num
  refine ⟨by simp, hl, ⟨hmeq, hdlt⟩, ?_⟩
  exact top_sentences_order ["x"] [("s1", ["x"]), ("s2", ["x", "y"])] [("x", 1)] 2
    (by simp) ["s1", "s2"] hl "s1" "s2" ["x"] ["x", "y"] (by simp) (by simp)
    0 1 (by norm_num) (by norm_num) rfl rfl (by decide) (Or.inr ⟨hmeq, hdlt⟩)

/-! ### C9: scale invariance of file scores and file ranking -/

theorem mem_iff_of_count_mul (k : Nat) (hk : 0 < k) (ws ws2 : List Term)
    (h : ∀ t, ws2.count t = k * ws.count t) (w : Term) : w ∈ ws2 ↔ w ∈ ws := by
  rw [← List.count_pos_iff, ← List.count_pos_iff, h w]
  constructor
  · intro hp
    exact Nat.pos_of_ne_zero fun hc => by simp [hc] at hp
  · intro hp
    exact Nat.mul_pos hk hp

theorem fileScore_mul (q : List Term) (idfs : List (Term × ℝ)) (k : Nat) (hk : 0 < k)
    (ws ws2 : List Term) (h : ∀ t, ws2.count t = k * ws.count t) :
    fileScore q ws2 idfs = (k : ℝ) * fileScore q ws idfs := by
  rw [fileScore_eq_sum, fileScore_eq_sum, ← List.sum_map_mul_left]
  have hfun : (fun w => if w ∈ ws2 then (ws2.count w : ℝ) * idfD idfs w else 0) =
      fun w => (k : ℝ) * if w ∈ ws then (ws.count w : ℝ) * idfD idfs w else 0 := by
    funext w
    by_cases hw : w ∈ ws
    · rw [if_pos ((mem_iff_of_count_mul k hk ws ws2 h w).mpr hw), if_pos hw, h w]
      push_cast
      ring
    · rw [if_neg fun hw2 => hw ((mem_iff_of_count_mul k hk ws ws2 h w).mp hw2),
        if_neg hw, mul_zero]
  rw [hfun]

/-- C9: multiplying every term's raw occurrence count in a file by a
positive constant `k` multiplies that file's TF-IDF score by exactly
`k`, and applying the transformation uniformly to all files leaves the
`top_files` ranking unchanged. -/
theorem top_files_scale (q : List Term) (idfs : List (Term × ℝ)) (n : Nat)
    (k : Nat) (hk : 0 < k) (files files2 : List (DocId × List Term))
    (h : List.Forall₂ (fun p p2 => p.1 = p2.1 ∧ ∀ t, p2.2.count t = k * p.2.count t)
      files files2) :
    (∀ ws ws2 : List Term, (∀ t, ws2.count t = k * ws.count t) →
      fileScore q ws2 idfs = (k : ℝ) * fileScore q ws idfs) ∧
    top_files q files2 idfs n = top_files q files idfs n := by
  have hkR : (0 : ℝ) < (k : ℝ) := by exact_mod_cast hk
  refine ⟨fun ws ws2 hc => fileScore_mul q idfs k hk ws ws2 hc, ?_⟩
  have hscores : fileScores q files2 idfs =
      (fileScores q files idfs).map fun p => (p.1, (k : ℝ) * p.2) := by
    induction h with
    | nil => simp [fileScores]
    | cons hpq hrest ih =>
      simp only [fileScores, List.map_cons] at ih ⊢
      rw [ih, hpq.1, fileScore_mul q idfs k hk _ _ hpq.2]
  have hcond : ∀ a ∈ fileScores q files idfs, ∀ b ∈ fileScores q files idfs,
      scoreGe a b ↔ scoreGe ((fun p => (p.1, (k : ℝ) * p.2)) a)
        ((fun p => (p.1, (k : ℝ) * p.2)) b) := by
    intro a _ b _
    unfold scoreGe
    simp only
    exact (mul_le_mul_left hkR).symm
  have hsort : rankedFiles q files2 idfs =
      (rankedFiles q files idfs).map fun p => (p.1, (k : ℝ) * p.2) := by
    unfold rankedFiles
    rw [hscores]
    exact (List.map_insertionSort scoreGe scoreGe _ _ hcond).symm
  unfold top_files
  rw [hsort, ← List.map_take, List.map_map]
  rfl

theorem top_files_scale_witness :
    (0 : Nat) < 2 ∧
    List.Forall₂ (fun p p2 => p.1 = p2.1 ∧ ∀ t, p2.2.count t = 2 * p.2.count t)
      ([("a", ["x"])] : List (DocId × List Term)) [("a", ["x", "x"])] ∧
    ((∀ ws ws2 : List Term, (∀ t, ws2.count t = 2 * ws.count t) →
      fileScore ["x"] ws2 [("x", 1)] = ((2 : Nat) : ℝ) * fileScore ["x"] ws [("x", 1)]) ∧
    top_files ["x"] [("a", ["x", "x"])] [("x", 1)] 1 =
      top_files ["x"] [("a", ["x"])] [("x", 1)] 1) := by
  have hcount : ∀ t : Term, (["x", "x"] : List Term).count t = 2 * (["x"] : List Term).count t := by
    intro t
    rcases eq_or_ne t "x" with h | h
    · subst h
      decide
    · rw [List.count_eq_zero.mpr (by simp [h]), List.count_eq_zero.mpr (by simp [h])]
  refine ⟨by decide, List.Forall₂.cons ⟨rfl, hcount⟩ List.Forall₂.nil, ?_⟩
  exact top_files_scale ["x"] [("x", 1)] 1 2 (by decide) [("a", ["x"])] [("a", ["x", "x"])]
    (List.Forall₂.cons ⟨rfl, hcount⟩ List.Forall₂.nil)

/-! ### C10: stability of both rankings for equal keys -/

theorem filter_orderedInsert_neg {α : Type} (r : α → α → Prop) [DecidableRel r]
    (p : α → Bool) (a : α) (m : List α) (ha : p a = false) :
    (List.orderedInsert r a m).filter p = m.filter p := by
  induction m with
  | nil => simp [List.orderedInsert, ha]
  | cons b m ih =>
    by_cases hr : r a b
    · simp [List.orderedInsert, hr, List.filter_cons, ha]
    · simp only [List.orderedInsert, if_neg hr, List.filter_cons]
      cases hb : p b <;> simp [hb, ih]

theorem filter_orderedInsert_pos {α : Type} (r : α → α → Prop) [DecidableRel r]
    (p : α → Bool) (a : α) (m : List α) (ha : p a = true)
    (hm : ∀ b ∈ m, ¬r a b → p b = false) :
    (List.orderedInsert r a m).filter p = a :: m.filter p := by
  induction m with
  | nil => simp [List.orderedInsert, ha]
  | cons b m ih =>
    by_cases hr : r a b
    · simp [List.orderedInsert, hr, List.filter_cons, ha]
    · have hb : p b = false := hm b (List.mem_cons_self _ _) hr
      simp only [List.orderedInsert, if_neg hr, List.filter_cons, hb, ha,
        Bool.false_eq_true, if_false]
      exact ih fun c hc => hm c (List.mem_cons_of_mem _ hc)

/-- Stability of insertion sort: if any two elements selected by `p` are
related both ways by `r` (as equal-key elements are for a total
preorder), the selected subsequence is untouched by sorting. -/
theorem filter_insertionSort {α : Type} (r : α → α → Prop) [DecidableRel r]
    (p : α → Bool) (hp : ∀ a b, p a = true → p b = true → r a b) (l : List α) :
    (List.insertionSort r l).filter p = l.filter p := by
  induction l with
  | nil => rfl
  | cons a l ih =>
    simp only [List.insertionSort]
    cases ha : p a
    · rw [filter_orderedInsert_neg r p a _ ha, ih, List.filter_cons]
      simp [ha]
    · rw [filter_orderedInsert_pos r p a _ ha ?hm, ih, List.filter_cons]
      · simp [ha]
      case hm =>
        intro b _ hr
        cases hb : p b
        · rfl
        · exact absurd (hp a b ha hb) hr

/-- C10: in both rankings, entries with exactly equal ranking keys keep
the relative order in which they are enumerated in the input mapping:
for every key value, filtering the sorted scored list down to that key
gives exactly the same subsequence as filtering the unsorted scored
list, and both `top_files` and `top_sentences` are prefix projections
of those sorted lists, so the output order is fully determined. -/
theorem ranking_stable (q : List Term) (files : List (DocId × List Term))
    (idfs : List (Term × ℝ)) (n : Nat) :
    (∀ s : ℝ, (rankedFiles q files idfs).filter (fun x => x.2 = s) =
      (fileScores q files idfs).filter (fun x => x.2 = s)) ∧
    top_files q files idfs n = ((rankedFiles q files idfs).take n).map Prod.fst ∧
    (∀ (scored : List (SentId × (ℝ × ℝ))) (kv : ℝ × ℝ),
      (rankedSentences scored).filter (fun x => x.2 = kv) =
        scored.filter (fun x => x.2 = kv)) ∧
    (∀ sents : List (SentId × List Term),
      top_sentences q sents idfs n = (scoreAll q idfs sents).map fun scored =>
        ((rankedSentences scored).take n).map Prod.fst) := by
  refine ⟨?_, rfl, ?_, fun _ => rfl⟩
  · intro s
    apply filter_insertionSort
    intro a b hpa hpb
    have ha : a.2 = s := of_decide_eq_true hpa
    have hb : b.2 = s := of_decide_eq_true hpb
    unfold scoreGe
    rw [ha, hb]
  · intro scored kv
    apply filter_insertionSort
    intro a b hpa hpb
    have ha : a.2 = kv := of_decide_eq_true hpa
    have hb : b.2 = kv := of_decide_eq_true hpb
    unfold sentGe
    rw [ha, hb]
    exact Or.inr ⟨rfl, le_refl _⟩
